import Mathlib

/-!
# ign-converter: link containment, filesystem path allocation, legacy file rules

A shallow embedding of `util/util.go` (`CheckPathUsesLink`, `FSGeneration`) and of
the vendored Ignition `types/file.go` validators, with the properties the
specification states about them.

Modelling conventions:

* a Go `string` is a Lean `String`; `strings.HasPrefix`, `strings.HasSuffix` and
  `len(s) == 0` are read on the character list `String.data`;
* a Go `uint64` is a `Nat` reduced modulo `2 ^ 64` at every increment;
* a Go `map[string]string` value is `GoMap`: `none` is the nil map, `some m` an
  initialised map whose content is an association list without duplicate keys;
* a Go call that can panic returns `Except GoPanic _`.
-/

namespace IgnConverter

/-! ## Go strings -/

/-- Go `strings.HasPrefix(s, pre)`: `s` begins with `pre`. -/
def HasPrefix (s pre : String) : Bool :=
  pre.data.isPrefixOf s.data

/-- Go `strings.HasSuffix(s, suf)`: `s` ends with `suf`. -/
def HasSuffix (s suf : String) : Bool :=
  suf.data.isSuffixOf s.data

/-! ## `util.CheckPathUsesLink` -/

/-- The directory form of a link path, as computed in the loop body of
`CheckPathUsesLink`: `l` itself when it ends with `/`, otherwise `l ++ "/"`. -/
def linkdir (l : String) : String :=
  if !HasSuffix l "/" then l ++ "/" else l

/-- Go `CheckPathUsesLink(links, path)`: the first link whose directory form is a
prefix of `path` and which differs from `path`; the empty string when the loop
runs to its end. -/
def CheckPathUsesLink : List String → String → String
  | [], _ => ""
  | l :: links, path =>
    if HasPrefix path (linkdir l) && path != l then l
    else CheckPathUsesLink links path

/-- The loop condition of `CheckPathUsesLink` for one link, as a proposition. -/
def UsesLink (path l : String) : Prop :=
  HasPrefix path (linkdir l) = true ∧ path ≠ l

instance (path l : String) : Decidable (UsesLink path l) := by
  unfold UsesLink; infer_instance

/-! ## Go values used by `util.FSGeneration` -/

/-- Go `strconv.FormatUint(n, 10)`: the decimal rendering of `n`. -/
def FormatUint (n : Nat) : String :=
  Nat.repr n

/-- The content of an initialised `map[string]string`. -/
abbrev FsMap := AList (fun _ : String => String)

/-- A Go value of type `map[string]string`: `none` is the nil map. -/
abbrev GoMap := Option FsMap

/-- Run-time panics of the modelled code. -/
inductive GoPanic where
  /-- Go's "assignment to entry in nil map". -/
  | assignmentToEntryInNilMap
  deriving DecidableEq, Repr

/-- Go `v, ok := m[k]`, with `ok` read as `Option.isSome`: reading a nil map finds
nothing. -/
def mapIndex (m : GoMap) (k : String) : Option String :=
  match m with
  | none => none
  | some a => a.lookup k

/-- Go `m[k] = v`: writing to a nil map panics. -/
def mapAssign (m : GoMap) (k v : String) : Except GoPanic GoMap :=
  match m with
  | none => .error .assignmentToEntryInNilMap
  | some a => .ok (some (a.insert k v))

/-- The package-level variables `generatedNameCounter` and `addedSuffixCounter`
(both `uint64`). -/
structure Counters where
  generatedNameCounter : Nat
  addedSuffixCounter : Nat
  deriving DecidableEq, Repr

/-- What a returning call of `FSGeneration` leaves behind: the two results
`(name, err)`, the map the caller shares with the callee, and the counters. -/
structure FSGenResult where
  name : String
  err : Option String
  fsMap : GoMap
  counters : Counters

/-! ## `util.FSGeneration` -/

/-- Go `FSGeneration(name, fsMap)` run from counter state `c`. The mutex calls
have no sequential effect and are left out. -/
def FSGeneration (name : String) (fsMap : GoMap) (c : Counters) :
    Except GoPanic FSGenResult :=
  let c1 : Counters :=
    if name.length = 0 then
      { c with generatedNameCounter := (c.generatedNameCounter + 1) % 2 ^ 64 }
    else c
  let name1 : String :=
    if name.length = 0 then "ignition" ++ FormatUint c1.generatedNameCounter else name
  if (mapIndex fsMap name1).isSome then .ok ⟨name1, none, fsMap, c1⟩
  else
    let c2 : Counters :=
      { c1 with addedSuffixCounter := (c1.addedSuffixCounter + 1) % 2 ^ 64 }
    let path : String :=
      if name1 = "oem" then "/usr/share/oem"
      else "/tmp/" ++ name1 ++ "-ign" ++ FormatUint c2.addedSuffixCounter
    match mapAssign fsMap name1 path with
    | .error p => .error p
    | .ok m => .ok ⟨name1, none, m, c2⟩

/-- Successive calls `FSGeneration(n, fsMap)` for `n` in `names`, all on the same
map and the same counters; collects the returned names. -/
def FSGenerationSeq :
    List String → GoMap → Counters → Except GoPanic (List String × GoMap × Counters)
  | [], m, c => .ok ([], m, c)
  | n :: ns, m, c =>
    match FSGeneration n m c with
    | .error p => .error p
    | .ok r =>
      match FSGenerationSeq ns r.fsMap r.counters with
      | .error p => .error p
      | .ok (names, m', c') => .ok (r.name :: names, m', c')

/-! ## Legacy (v2_4) `types.File` -/

/-- The `entryKind` of the legacy `report` package, as far as the validators of
`file.go` use it. -/
inductive entryKind where
  | EntryError
  | EntryWarning
  deriving DecidableEq, Repr

/-- A `report.Entry`, with the fields the validators of `file.go` set. -/
structure Entry where
  Kind : entryKind
  Message : String
  deriving DecidableEq, Repr

/-- A `report.Report`: its `Entries`, in order. -/
abbrev Report := List Entry

/-- Modelled from the spec: the text of `errors.ErrAppendAndOverwrite`, declared in
the `config/shared/errors` package. -/
def ErrAppendAndOverwrite : String :=
  "append and overwrite are mutually exclusive"

/-- Modelled from the spec: `report.ReportFromError(err, kind)` for a non-nil
error, a report of the single entry carrying the error's text at the given kind. -/
def ReportFromError (msg : String) (kind : entryKind) : Report :=
  [⟨kind, msg⟩]

/-- The legacy `File`, with the fields read by `Validate` and `ValidateMode`:
`Overwrite *bool` (from the embedded `Node`), `Append bool`, `Mode *int`. -/
structure File where
  Overwrite : Option Bool
  Append : Bool
  Mode : Option Int
  deriving DecidableEq, Repr

/-- Go `(f File) Validate()` of the legacy schema. -/
def File.Validate (f : File) : Report :=
  let both : Bool :=
    match f.Overwrite with
    | none => false
    | some overwrite => overwrite && f.Append
  if both then ReportFromError ErrAppendAndOverwrite entryKind.EntryError else []

/-! ## Legacy (v2_4) `types.File.ValidateMode` and `types.FileContents` -/

/-- Go `(r *Report) Add(e)` of the legacy `report` package: appends the entry. -/
def Report.Add (r : Report) (e : Entry) : Report :=
  r ++ [e]

/-- Modelled from the spec: the text of `errors.ErrPermissionsUnset`. -/
def ErrPermissionsUnset : String :=
  "permissions unset"

/-- Modelled from the spec: the text of `errors.ErrFileIllegalMode`. -/
def ErrFileIllegalMode : String :=
  "illegal file mode"

/-- Modelled from the spec: the text of `errors.ErrCompressionInvalid`. -/
def ErrCompressionInvalid : String :=
  "compression-invalid"

/-- Modelled from the spec: the text of `errors.ErrInvalidUrl`. -/
def ErrInvalidUrl : String :=
  "invalid url"

/-- Modelled from the spec: the text of `errors.ErrUnsupportedSchemeForHTTPHeaders`. -/
def ErrUnsupportedSchemeForHTTPHeaders : String :=
  "headers-without-http-scheme"

/-- Modelled from the spec: the legacy `validateMode(m *int)` of `mode.go`, which is not
among the sources. An absent mode is no error; a present one is an error exactly when it
does not encode a well-formed permission value, `wellFormed` being that test. The
result is the error's text, `none` for a nil error. -/
def validateMode (wellFormed : Int → Bool) (m : Option Int) : Option String :=
  match m with
  | none => none
  | some v => if wellFormed v then none else some ErrFileIllegalMode

/-- Go `(f File) ValidateMode()` of the legacy schema. -/
def File.ValidateMode (wellFormed : Int → Bool) (f : File) : Report :=
  let r0 : Report := []
  let r1 : Report :=
    match validateMode wellFormed f.Mode with
    | some err => r0.Add ⟨entryKind.EntryError, err⟩
    | none => r0
  let r2 : Report :=
    if f.Mode = none then r1.Add ⟨entryKind.EntryWarning, ErrPermissionsUnset⟩ else r1
  r2

/-- The legacy `FileContents`, with the fields read by its validators:
`Compression string`, `Source string`, and `HTTPHeaders`, a list of name and value
pairs. -/
structure FileContents where
  Compression : String
  Source : String
  HTTPHeaders : List (String × String)
  deriving DecidableEq, Repr

/-- Go `(fc FileContents) ValidateCompression()` of the legacy schema. -/
def FileContents.ValidateCompression (fc : FileContents) : Report :=
  let r : Report := []
  if fc.Compression = "" ∨ fc.Compression = "gzip" then r
  else r.Add ⟨entryKind.EntryError, ErrCompressionInvalid⟩

/-- What the validators read of a Go `*url.URL`: its `Scheme`. -/
structure URL where
  Scheme : String
  deriving DecidableEq, Repr

/-- Go `(fc FileContents) ValidateHTTPHeaders()` of the legacy schema. The standard
library function `url.Parse` is the parameter `urlParse`; `none` is its error result. -/
def FileContents.ValidateHTTPHeaders (urlParse : String → Option URL) (fc : FileContents) :
    Report :=
  let r : Report := []
  if fc.HTTPHeaders.length < 1 then r
  else
    match urlParse fc.Source with
    | none => r.Add ⟨entryKind.EntryError, ErrInvalidUrl⟩
    | some u =>
      if u.Scheme = "http" ∨ u.Scheme = "https" then r
      else r.Add ⟨entryKind.EntryError, ErrUnsupportedSchemeForHTTPHeaders⟩

/-! ## Current (v3_0) `types.File` and `types.FileContents` -/

namespace v3_0

/-- An element of a `path.ContextPath`: a field name or a list index. -/
inductive PathElem where
  | field (name : String)
  | index (i : Nat)
  deriving DecidableEq, Repr

/-- The `path.ContextPath` of `vcontext`: the `Path` of elements and the `Tag`. -/
structure ContextPath where
  Path : List PathElem
  Tag : String
  deriving DecidableEq, Repr

/-- Go `(c ContextPath) Append(e ...)` for field names: a new path with the names added
at the end, under the same tag. -/
def ContextPath.Append (c : ContextPath) (e : List String) : ContextPath :=
  ⟨c.Path ++ e.map PathElem.field, c.Tag⟩

/-- The `report.Kind` of `vcontext`. -/
inductive Kind where
  | Error
  | Warn
  | Info
  deriving DecidableEq, Repr

/-- A `report.Entry` of `vcontext`, with the fields `AddOn` sets. -/
structure Entry where
  Kind : Kind
  Message : String
  Context : ContextPath
  deriving DecidableEq, Repr

/-- A `report.Report` of `vcontext`: its `Entries`, in order. -/
abbrev Report := List Entry

/-- Go `(r *Report) Merge(child)` of `vcontext`: appends the child's entries. -/
def Report.Merge (r child : Report) : Report :=
  r ++ child

/-- Go `(r *Report) AddOnError(c, err)` of `vcontext`: when `err` is not nil, appends an
entry of kind `Error` with the error's text at context `c`. A Go `error` is the option
of its text. -/
def Report.AddOnError (r : Report) (c : ContextPath) (err : Option String) : Report :=
  match err with
  | none => r
  | some msg => r ++ [⟨Kind.Error, msg, c⟩]

/-- Modelled from the spec: the text of `errors.ErrCompressionInvalid`. -/
def ErrCompressionInvalid : String :=
  "compression-invalid"

/-- Modelled from the spec: the text of `errors.ErrVerificationAndNilSource`. -/
def ErrVerificationAndNilSource : String :=
  "verification-without-source"

/-- Modelled from the spec: the text of `errors.ErrOverwriteAndNilSource`. -/
def ErrOverwriteAndNilSource : String :=
  "overwrite-without-source"

/-- Modelled from the spec: `util.IsTrue(b *bool)` of the Ignition `config/util`
package, which is not among the sources: the pointer is set and points to `true`. -/
def IsTrue (b : Option Bool) : Bool :=
  match b with
  | none => false
  | some v => v

/-- Modelled from the spec: `validateURLNilOK(s *string)` of `url.go`, which is not
among the sources: an absent source is no error, a present one is checked by
`validateURL`, a parameter here. -/
def validateURLNilOK (validateURL : String → Option String) (s : Option String) :
    Option String :=
  match s with
  | none => none
  | some u => validateURL u

/-- The `Verification` of the current schema: `Hash *string`. -/
structure Verification where
  Hash : Option String
  deriving DecidableEq, Repr

/-- The current `FileContents`: `Compression *string`, `Source *string`,
`Verification`. -/
structure FileContents where
  Compression : Option String
  Source : Option String
  Verification : Verification
  deriving DecidableEq, Repr

/-- Go `(fc FileContents) validateCompression()` of the current schema. -/
def FileContents.validateCompression (fc : FileContents) : Option String :=
  match fc.Compression with
  | some comp => if comp = "" ∨ comp = "gzip" then none else some ErrCompressionInvalid
  | none => none

/-- Go `(fc FileContents) validateVerification()` of the current schema. -/
def FileContents.validateVerification (fc : FileContents) : Option String :=
  if fc.Verification.Hash ≠ none ∧ fc.Source = none then some ErrVerificationAndNilSource
  else none

/-- Go `(fc FileContents) Validate(c)` of the current schema. -/
def FileContents.Validate (validateURL : String → Option String) (fc : FileContents)
    (c : ContextPath) : Report :=
  let r0 : Report := []
  let r1 := r0.AddOnError (c.Append ["compression"]) fc.validateCompression
  let r2 := r1.AddOnError (c.Append ["verification", "hash"]) fc.validateVerification
  let r3 := r2.AddOnError (c.Append ["source"]) (validateURLNilOK validateURL fc.Source)
  r3

/-- The current `File`, with the fields read by `Validate`: `Overwrite *bool` (from the
embedded `Node`), `Mode *int` and `Contents` (from `FileEmbedded1`). -/
structure File where
  Overwrite : Option Bool
  Mode : Option Int
  Contents : FileContents
  deriving DecidableEq, Repr

/-- Go `(f File) validateOverwrite()` of the current schema. -/
def File.validateOverwrite (f : File) : Option String :=
  if IsTrue f.Overwrite = true ∧ f.Contents.Source = none then some ErrOverwriteAndNilSource
  else none

/-- Go `(f File) Validate(c)` of the current schema. `f.Node.Validate(c)` and
`validateMode(f.Mode)` are code of `node.go` and `mode.go`, not among the sources: their
results are the parameters `nodeReport` and `modeErr`. -/
def File.Validate (nodeReport : Report) (modeErr : Option String) (f : File)
    (c : ContextPath) : Report :=
  let r0 : Report := []
  let r1 := r0.Merge nodeReport
  let r2 := r1.AddOnError (c.Append ["mode"]) modeErr
  let r3 := r2.AddOnError (c.Append ["overwrite"]) f.validateOverwrite
  r3

end v3_0

/-! ## The pointer helpers of `util.go` -/

/-- Go `StrP(in)`: nil for the empty string, otherwise a pointer to it. -/
def StrP (s : String) : Option String :=
  if s = "" then none else some s

/-- Go `StrPStrict(in)`: always a pointer. -/
def StrPStrict (s : String) : Option String :=
  some s

/-- Go `BoolP(in)`: nil for `false`, otherwise a pointer. -/
def BoolP (b : Bool) : Option Bool :=
  if !b then none else some b

/-- Go `BoolPStrict(in)`: always a pointer. -/
def BoolPStrict (b : Bool) : Option Bool :=
  some b

/-- Go `IntP(in)`: nil for zero, otherwise a pointer. -/
def IntP (n : Int) : Option Int :=
  if n = 0 then none else some n

/-- Go `StrV(in)`: the empty string for nil, otherwise the value pointed to. -/
def StrV (p : Option String) : String :=
  match p with
  | none => ""
  | some s => s

/-- Go `BoolV(in)`: `false` for nil, otherwise the value pointed to. -/
def BoolV (p : Option Bool) : Bool :=
  match p with
  | none => false
  | some b => b

/-- Go `IntV(in)`: zero for nil, otherwise the value pointed to. -/
def IntV (p : Option Int) : Int :=
  match p with
  | none => 0
  | some n => n

/-! ## Auxiliary definitions for the proofs about `FSGeneration` -/

/-- The name `FSGeneration` works with after its first `if`. -/
def resolvedName (name : String) (c : Counters) : String :=
  if name.length = 0 then "ignition" ++ FormatUint ((c.generatedNameCounter + 1) % 2 ^ 64)
  else name

/-- The counters after the first `if` of `FSGeneration`. -/
def countersAfterName (name : String) (c : Counters) : Counters :=
  if name.length = 0 then ⟨(c.generatedNameCounter + 1) % 2 ^ 64, c.addedSuffixCounter⟩ else c

/-- The counters after the increment of `addedSuffixCounter`. -/
def countersAfterSuffix (c : Counters) : Counters :=
  ⟨c.generatedNameCounter, (c.addedSuffixCounter + 1) % 2 ^ 64⟩

/-- The path `FSGeneration` stores for a name absent from the map, the suffix counter
having been advanced to `n`. -/
def newPath (name : String) (n : Nat) : String :=
  if name = "oem" then "/usr/share/oem" else "/tmp/" ++ name ++ "-ign" ++ FormatUint n

/-- Every path stored in the map is the one `FSGeneration` computes for its key. -/
def PathsGenerated (m : FsMap) : Prop :=
  ∀ k v, mapIndex (some m) k = some v → ∃ n, v = newPath k n

/-! ## Link containment: `CheckPathUsesLink` -/

theorem usesLink_iff (path l : String) :
    (HasPrefix path (linkdir l) && path != l) = true ↔ UsesLink path l := by
  simp [UsesLink]

theorem CheckPathUsesLink_nil (path : String) : CheckPathUsesLink [] path = "" := rfl

theorem CheckPathUsesLink_cons_pos (l : String) (links : List String) (path : String)
    (h : UsesLink path l) : CheckPathUsesLink (l :: links) path = l := by
  have h1 := (usesLink_iff path l).mpr h
  simp only [CheckPathUsesLink, h1, if_true]

theorem CheckPathUsesLink_cons_neg (l : String) (links : List String) (path : String)
    (h : ¬ UsesLink path l) :
    CheckPathUsesLink (l :: links) path = CheckPathUsesLink links path := by
  have h1 : ¬ ((HasPrefix path (linkdir l) && path != l) = true) :=
    fun hc => h ((usesLink_iff path l).mp hc)
  simp only [CheckPathUsesLink, h1, if_false]
  rfl

theorem CheckPathUsesLink_none (links : List String) (path : String)
    (h : ∀ l ∈ links, ¬ UsesLink path l) : CheckPathUsesLink links path = "" := by
  induction links with
  | nil => rfl
  | cons l ls ih =>
    rw [CheckPathUsesLink_cons_neg l ls path (h l (List.mem_cons_self _ _))]
    exact ih (fun x hx => h x (List.mem_cons_of_mem _ hx))

theorem CheckPathUsesLink_first (pre : List String) (l : String) (post : List String)
    (path : String) (hpre : ∀ x ∈ pre, ¬ UsesLink path x) (hl : UsesLink path l) :
    CheckPathUsesLink (pre ++ l :: post) path = l := by
  induction pre with
  | nil => exact CheckPathUsesLink_cons_pos l post path hl
  | cons x xs ih =>
    rw [List.cons_append, CheckPathUsesLink_cons_neg x _ path (hpre x (List.mem_cons_self _ _))]
    exact ih (fun y hy => hpre y (List.mem_cons_of_mem _ hy))

theorem CheckPathUsesLink_sound (links : List String) (path : String)
    (h : CheckPathUsesLink links path ≠ "") :
    CheckPathUsesLink links path ∈ links ∧ UsesLink path (CheckPathUsesLink links path) := by
  induction links with
  | nil => exact absurd rfl h
  | cons l ls ih =>
    by_cases hl : UsesLink path l
    · rw [CheckPathUsesLink_cons_pos l ls path hl]
      exact ⟨List.mem_cons_self _ _, hl⟩
    · rw [CheckPathUsesLink_cons_neg l ls path hl] at h ⊢
      exact ⟨List.mem_cons_of_mem _ (ih h).1, (ih h).2⟩

theorem CheckPathUsesLink_complete (links : List String) (path : String)
    (hne : ∀ l ∈ links, l ≠ "") (h : ∃ l ∈ links, UsesLink path l) :
    CheckPathUsesLink links path ≠ "" := by
  induction links with
  | nil => obtain ⟨l, hl, _⟩ := h; cases hl
  | cons l ls ih =>
    by_cases hl : UsesLink path l
    · rw [CheckPathUsesLink_cons_pos l ls path hl]
      exact hne l (List.mem_cons_self _ _)
    · rw [CheckPathUsesLink_cons_neg l ls path hl]
      refine ih (fun x hx => hne x (List.mem_cons_of_mem _ hx)) ?_
      obtain ⟨x, hx, hux⟩ := h
      rcases List.mem_cons.mp hx with rfl | hx
      · exact absurd hux hl
      · exact ⟨x, hx, hux⟩


theorem HasPrefix_append_left (a b c : String) :
    HasPrefix (a ++ b) (a ++ c) = HasPrefix b c := by
  unfold HasPrefix
  rw [Bool.eq_iff_iff]
  simp only [String.data_append, List.isPrefixOf_iff_prefix]
  exact List.prefix_append_right_inj a.data

/-- C1, as stated, fails: with the single link `""` and the path `"/x"` the link
satisfies both conditions (`"/x"` starts with `"/"` and differs from `""`), yet the
returned string, the link itself, is empty. -/
theorem CheckPathUsesLink_iff_counterexample :
    ¬ (∀ (links : List String) (P : String),
        CheckPathUsesLink links P ≠ "" ↔
          ∃ L ∈ links, HasPrefix P (if HasSuffix L "/" then L else L ++ "/") = true ∧ P ≠ L) := by
  intro h
  have h1 := (h [""] "/x").mpr ⟨"", by decide, by decide, by decide⟩
  exact h1 (by decide)

theorem UsesLink_iff_spec (P L : String) :
    UsesLink P L ↔ (HasPrefix P (if HasSuffix L "/" then L else L ++ "/") = true ∧ P ≠ L) := by
  unfold UsesLink linkdir
  cases HasSuffix L "/" <;> simp

theorem linkdir_eq (L : String) : linkdir L = if HasSuffix L "/" then L else L ++ "/" := by
  unfold linkdir
  cases HasSuffix L "/" <;> rfl

theorem CheckPathUsesLink_eq_find (links : List String) (P : String) :
    CheckPathUsesLink links P =
      (links.find? (fun L =>
        HasPrefix P (if HasSuffix L "/" then L else L ++ "/") && P != L)).getD "" := by
  induction links with
  | nil => rfl
  | cons l ls ih =>
    simp only [CheckPathUsesLink, List.find?, linkdir_eq]
    cases h : (HasPrefix P (if HasSuffix l "/" then l else l ++ "/") && P != l)
    · simp only [Bool.false_eq_true, if_false]
      exact ih
    · simp only [if_true, Option.getD_some]

/-- C1, amended: `CheckPathUsesLink links P` is the first link `L` of the list, in list
order, such that `P` starts with `L` normalised to end with `/` and `P ≠ L`, and the
empty string when no link is such. Hence, when no link of the list is the empty string,
the result is non-empty if and only if some link of the list satisfies both conditions;
and a non-empty result always is a link of the list satisfying both. -/
theorem CheckPathUsesLink_iff (links : List String) (P : String) :
    CheckPathUsesLink links P =
      (links.find? (fun L =>
        HasPrefix P (if HasSuffix L "/" then L else L ++ "/") && P != L)).getD "" ∧
    ((∀ L ∈ links, L ≠ "") →
      (CheckPathUsesLink links P ≠ "" ↔
        ∃ L ∈ links,
          HasPrefix P (if HasSuffix L "/" then L else L ++ "/") = true ∧ P ≠ L)) ∧
    (CheckPathUsesLink links P ≠ "" →
      CheckPathUsesLink links P ∈ links ∧
      HasPrefix P (if HasSuffix (CheckPathUsesLink links P) "/" then CheckPathUsesLink links P
        else CheckPathUsesLink links P ++ "/") = true ∧
      P ≠ CheckPathUsesLink links P) := by
  refine ⟨CheckPathUsesLink_eq_find links P, fun hne => ⟨fun h => ?_, fun h => ?_⟩, fun h => ?_⟩
  · exact ⟨_, (CheckPathUsesLink_sound links P h).1,
      (UsesLink_iff_spec P _).mp (CheckPathUsesLink_sound links P h).2⟩
  · obtain ⟨L, hL, hu⟩ := h
    exact CheckPathUsesLink_complete links P hne ⟨L, hL, (UsesLink_iff_spec P L).mpr hu⟩
  · exact ⟨(CheckPathUsesLink_sound links P h).1,
      (UsesLink_iff_spec P _).mp (CheckPathUsesLink_sound links P h).2⟩

/-- C2: a path that extends a link without a separator does not use the link: for
`L` not ending with `/` and `s` not starting with `/` (possibly empty),
`CheckPathUsesLink [L] (L ++ s)` is the empty string. -/
theorem CheckPathUsesLink_no_separator (L s : String)
    (hL : HasSuffix L "/" = false) (hs : HasPrefix s "/" = false) :
    CheckPathUsesLink [L] (L ++ s) = "" := by
  apply CheckPathUsesLink_none
  intro l hl
  rw [List.mem_singleton] at hl
  subst hl
  intro hu
  have h1 := hu.1
  unfold linkdir at h1
  simp only [hL, Bool.not_false, if_true] at h1
  rw [HasPrefix_append_left, hs] at h1
  exact Bool.false_ne_true h1

/-- Witness for C2: `L = "/etc/foo"`, `P = "/etc/foobar"`. -/
theorem CheckPathUsesLink_no_separator_witness :
    CheckPathUsesLink ["/etc/foo"] ("/etc/foo" ++ "bar") = "" :=
  CheckPathUsesLink_no_separator "/etc/foo" "bar" (by decide) (by decide)

/-- C3: exact equality is exempt: `CheckPathUsesLink [L] L` is empty for every `L`,
and for every list and path the call either returns no link (the empty string) or a
link different from the path. -/
theorem CheckPathUsesLink_exact_exempt :
    (∀ L : String, CheckPathUsesLink [L] L = "") ∧
    (∀ (links : List String) (P : String),
      CheckPathUsesLink links P = "" ∨ CheckPathUsesLink links P ≠ P) := by
  constructor
  · intro L
    exact CheckPathUsesLink_none [L] L (fun l hl hu => hu.2 (List.mem_singleton.mp hl).symm)
  · intro links P
    by_cases h : CheckPathUsesLink links P = ""
    · exact Or.inl h
    · exact Or.inr (fun heq => (CheckPathUsesLink_sound links P h).2.2 heq.symm)

/-! ## Decimal rendering -/

theorem toDigitsCore_append (b : Nat) (f : Nat) : ∀ (n : Nat) (ds : List Char),
    Nat.toDigitsCore b f n ds = Nat.toDigitsCore b f n [] ++ ds := by
  induction f with
  | zero => intro n ds; simp [Nat.toDigitsCore]
  | succ f ih =>
    intro n ds
    simp only [Nat.toDigitsCore]
    split
    · simp
    · rw [ih (n / b) (Nat.digitChar (n % b) :: ds), ih (n / b) [Nat.digitChar (n % b)]]
      simp

theorem toDigitsCore_fuel (b : Nat) (hb : 2 ≤ b) (f : Nat) : ∀ (g n : Nat) (ds : List Char),
    n < f → n < g → Nat.toDigitsCore b f n ds = Nat.toDigitsCore b g n ds := by
  induction f with
  | zero => intro g n ds h; omega
  | succ f ih =>
    intro g n ds hf hg
    cases g with
    | zero => omega
    | succ g =>
      simp only [Nat.toDigitsCore]
      split
      · rfl
      · rename_i hq
        have hlt : n / b < n := by
          apply Nat.div_lt_self _ hb
          rcases Nat.eq_zero_or_pos n with h0 | h0
          · subst h0; simp at hq
          · exact h0
        exact ih g (n / b) _ (by omega) (by omega)

theorem toDigits_small (n : Nat) (h : n < 10) : Nat.toDigits 10 n = [Nat.digitChar n] := by
  unfold Nat.toDigits
  simp only [Nat.toDigitsCore]
  have h1 : n / 10 = 0 := Nat.div_eq_of_lt h
  have h2 : n % 10 = n := Nat.mod_eq_of_lt h
  simp [h1, h2]

theorem toDigits_large (n : Nat) (h : 10 ≤ n) :
    Nat.toDigits 10 n = Nat.toDigits 10 (n / 10) ++ [Nat.digitChar (n % 10)] := by
  unfold Nat.toDigits
  simp only [Nat.toDigitsCore]
  have h1 : n / 10 ≠ 0 := by omega
  simp only [h1, if_false]
  rw [toDigitsCore_append]
  congr 1
  exact toDigitsCore_fuel 10 (by decide) n (n / 10 + 1) (n / 10) [] (by omega) (by omega)

theorem toDigits_ne_nil (n : Nat) : Nat.toDigits 10 n ≠ [] := by
  by_cases h : n < 10
  · rw [toDigits_small n h]; simp
  · rw [toDigits_large n (by omega)]; simp

theorem digitChar_isDigit (n : Nat) (h : n < 10) : (Nat.digitChar n).isDigit = true := by
  interval_cases n <;> decide

theorem digitChar_inj (n m : Nat) (hn : n < 10) (hm : m < 10)
    (h : Nat.digitChar n = Nat.digitChar m) : n = m := by
  interval_cases n <;> interval_cases m <;> first | rfl | (exact absurd h (by decide))

theorem toDigits_isDigit (n : Nat) : ∀ c ∈ Nat.toDigits 10 n, c.isDigit = true := by
  induction n using Nat.strong_induction_on with
  | _ n ih =>
    by_cases h : n < 10
    · rw [toDigits_small n h]
      intro c hc
      rw [List.mem_singleton] at hc
      subst hc
      exact digitChar_isDigit n h
    · rw [toDigits_large n (by omega)]
      intro c hc
      rcases List.mem_append.mp hc with hc | hc
      · exact ih (n / 10) (by omega) c hc
      · rw [List.mem_singleton] at hc
        subst hc
        exact digitChar_isDigit _ (Nat.mod_lt _ (by decide))

theorem toDigits_inj (n : Nat) : ∀ m, Nat.toDigits 10 n = Nat.toDigits 10 m → n = m := by
  induction n using Nat.strong_induction_on with
  | _ n ih =>
    intro m h
    by_cases hn : n < 10
    · by_cases hm : m < 10
      · rw [toDigits_small n hn, toDigits_small m hm] at h
        exact digitChar_inj n m hn hm (List.singleton_inj.mp h)
      · rw [toDigits_small n hn, toDigits_large m (by omega)] at h
        have := congrArg List.length h
        have hne := toDigits_ne_nil (m / 10)
        have hpos : 0 < (Nat.toDigits 10 (m / 10)).length := List.length_pos.mpr hne
        rw [List.length_append] at this
        simp only [List.length_singleton] at this
        omega
    · by_cases hm : m < 10
      · rw [toDigits_large n (by omega), toDigits_small m hm] at h
        have := congrArg List.length h
        have hne := toDigits_ne_nil (n / 10)
        have hpos : 0 < (Nat.toDigits 10 (n / 10)).length := List.length_pos.mpr hne
        rw [List.length_append] at this
        simp only [List.length_singleton] at this
        omega
      · rw [toDigits_large n (by omega), toDigits_large m (by omega)] at h
        have h2 := List.append_inj' h rfl
        have hq : n / 10 = m / 10 := ih (n / 10) (by omega) (m / 10) h2.1
        have hr : n % 10 = m % 10 :=
          digitChar_inj _ _ (Nat.mod_lt _ (by decide)) (Nat.mod_lt _ (by decide))
            (List.singleton_inj.mp h2.2)
        omega

theorem FormatUint_data (n : Nat) : (FormatUint n).data = Nat.toDigits 10 n := rfl

theorem FormatUint_injective (n m : Nat) (h : FormatUint n = FormatUint m) : n = m :=
  toDigits_inj n m (by rw [← FormatUint_data, ← FormatUint_data, h])

theorem FormatUint_isDigit (n : Nat) : ∀ c ∈ (FormatUint n).data, c.isDigit = true :=
  toDigits_isDigit n

/-! ## One call of `FSGeneration` -/

theorem String_length_eq_zero (s : String) : s.length = 0 ↔ s = "" := by
  constructor
  · intro h
    apply String.ext
    exact List.length_eq_zero.mp h
  · rintro rfl; rfl

theorem FSGeneration_present (name : String) (m : FsMap) (c : Counters) (v : String)
    (h : mapIndex (some m) (resolvedName name c) = some v) :
    FSGeneration name (some m) c =
      .ok ⟨resolvedName name c, none, some m, countersAfterName name c⟩ := by
  unfold resolvedName at h
  unfold FSGeneration resolvedName countersAfterName
  by_cases hn : name.length = 0
  · rw [if_pos hn] at h
    simp only [if_pos hn, h, Option.isSome_some, if_true]
  · rw [if_neg hn] at h
    simp only [if_neg hn, h, Option.isSome_some, if_true]

theorem FSGeneration_absent (name : String) (m : FsMap) (c : Counters)
    (h : mapIndex (some m) (resolvedName name c) = none) :
    FSGeneration name (some m) c =
      .ok ⟨resolvedName name c, none,
        some (m.insert (resolvedName name c)
          (newPath (resolvedName name c)
            (countersAfterSuffix (countersAfterName name c)).addedSuffixCounter)),
        countersAfterSuffix (countersAfterName name c)⟩ := by
  unfold resolvedName at h
  unfold FSGeneration resolvedName countersAfterName countersAfterSuffix newPath
  by_cases hn : name.length = 0
  · rw [if_pos hn] at h
    simp only [if_pos hn, h, Option.isSome_none, Bool.false_eq_true, if_false, mapAssign]
  · rw [if_neg hn] at h
    simp only [if_neg hn, h, Option.isSome_none, Bool.false_eq_true, if_false, mapAssign]

theorem FSGeneration_nil (name : String) (c : Counters) :
    FSGeneration name none c = .error GoPanic.assignmentToEntryInNilMap := by
  unfold FSGeneration
  simp only [mapIndex, Option.isSome_none, Bool.false_eq_true, if_false, mapAssign]

theorem mapIndex_insert_self (m : FsMap) (k v : String) :
    mapIndex (some (m.insert k v)) k = some v := by
  simp only [mapIndex]
  exact AList.lookup_insert m

theorem mapIndex_insert_ne (m : FsMap) (k k' v : String) (h : k' ≠ k) :
    mapIndex (some (m.insert k v)) k' = mapIndex (some m) k' := by
  simp only [mapIndex]
  exact AList.lookup_insert_ne h

theorem mapIndex_eq_none (m : FsMap) (k : String) :
    mapIndex (some m) k = none ↔ k ∉ m := by
  simp only [mapIndex]
  exact AList.lookup_eq_none

theorem resolvedName_of_ne (name : String) (c : Counters) (h : name ≠ "") :
    resolvedName name c = name := by
  unfold resolvedName
  rw [if_neg (fun hl => h ((String_length_eq_zero name).mp hl))]

theorem countersAfterName_of_ne (name : String) (c : Counters) (h : name ≠ "") :
    countersAfterName name c = c := by
  unfold countersAfterName
  rw [if_neg (fun hl => h ((String_length_eq_zero name).mp hl))]

theorem resolvedName_empty (c : Counters) :
    resolvedName "" c = "ignition" ++ FormatUint ((c.generatedNameCounter + 1) % 2 ^ 64) := by
  unfold resolvedName
  exact if_pos (by decide)

theorem countersAfterName_empty (c : Counters) :
    countersAfterName "" c = ⟨(c.generatedNameCounter + 1) % 2 ^ 64, c.addedSuffixCounter⟩ := by
  unfold countersAfterName
  exact if_pos (by decide)

/-- C9, as stated, fails: on the nil map the call with name `"x"` does not return; it
panics at the map assignment. -/
theorem FSGeneration_never_fails_counterexample :
    ¬ (∀ (name : String) (fsMap : GoMap) (c : Counters),
        ∃ r, FSGeneration name fsMap c = .ok r ∧ r.err = none) := by
  intro h
  obtain ⟨r, hr, _⟩ := h "x" none ⟨0, 0⟩
  rw [FSGeneration_nil] at hr
  cases hr

/-- C9, amended: on every initialised (non-nil) map, for every name and counter state,
`FSGeneration` returns and its error is nil; on the nil map it panics with
"assignment to entry in nil map", whatever the name and the counters. -/
theorem FSGeneration_never_fails (name : String) (c : Counters) :
    (∀ m : FsMap, ∃ r, FSGeneration name (some m) c = .ok r ∧ r.err = none) ∧
    FSGeneration name none c = .error GoPanic.assignmentToEntryInNilMap := by
  refine ⟨fun m => ?_, FSGeneration_nil name c⟩
  cases h : mapIndex (some m) (resolvedName name c) with
  | none => exact ⟨_, FSGeneration_absent name m c h, rfl⟩
  | some v => exact ⟨_, FSGeneration_present name m c v h, rfl⟩

/-- C4, as stated for every fsMap, fails: on the nil map the first call with the
non-empty name `data` panics at the map assignment, so there are no two calls in a row
that return the name. -/
theorem FSGeneration_idempotent_counterexample :
    FSGeneration "data" none ⟨0, 0⟩ = .error GoPanic.assignmentToEntryInNilMap ∧
    ¬ (∀ (name : String) (fsMap : GoMap) (c : Counters), name ≠ "" →
        ∃ r1 r2,
          FSGeneration name fsMap c = .ok r1 ∧
          FSGeneration name r1.fsMap r1.counters = .ok r2 ∧
          r1.name = name ∧ r2.name = name ∧
          mapIndex r2.fsMap name = mapIndex r1.fsMap name ∧
          r2.fsMap = r1.fsMap ∧
          r2.counters.generatedNameCounter = r1.counters.generatedNameCounter ∧
          r2.counters.addedSuffixCounter = r1.counters.addedSuffixCounter) := by
  refine ⟨FSGeneration_nil "data" ⟨0, 0⟩, fun h => ?_⟩
  obtain ⟨r1, _, h1, _⟩ := h "data" none ⟨0, 0⟩ (by decide)
  rw [FSGeneration_nil] at h1
  cases h1

/-- C4, amended: on an initialised (non-nil) map and a non-empty name, two calls in a
row return the name both times, the second call finds the path the first one left for
the name, and the second call changes neither the map nor the counters. -/
theorem FSGeneration_idempotent (name : String) (m : FsMap) (c : Counters)
    (hne : name ≠ "") :
    ∃ r1 r2 p,
      FSGeneration name (some m) c = .ok r1 ∧
      FSGeneration name r1.fsMap r1.counters = .ok r2 ∧
      r1.name = name ∧ r2.name = name ∧
      mapIndex r1.fsMap name = some p ∧ mapIndex r2.fsMap name = some p ∧
      r2.fsMap = r1.fsMap ∧
      r2.counters.generatedNameCounter = r1.counters.generatedNameCounter ∧
      r2.counters.addedSuffixCounter = r1.counters.addedSuffixCounter := by
  have hr := resolvedName_of_ne name
  have hc := countersAfterName_of_ne name
  cases h : mapIndex (some m) name with
  | some v =>
    have h1 := FSGeneration_present name m c v (by rw [hr c hne]; exact h)
    rw [hr c hne, hc c hne] at h1
    exact ⟨_, _, v, h1, h1, rfl, rfl, h, h, rfl, rfl, rfl⟩
  | none =>
    have h1 := FSGeneration_absent name m c (by rw [hr c hne]; exact h)
    rw [hr c hne, hc c hne] at h1
    have hp := mapIndex_insert_self m name (newPath name (countersAfterSuffix c).addedSuffixCounter)
    have h2 := FSGeneration_present name _ (countersAfterSuffix c) _
      (by rw [hr _ hne]; exact hp)
    rw [hr _ hne, hc _ hne] at h2
    exact ⟨_, _, _, h1, h2, rfl, rfl, hp, hp, rfl, rfl, rfl⟩

/-- Witness for C4: the name `data` resolved twice against the empty map. -/
theorem FSGeneration_idempotent_witness :
    ∃ r1 r2 p,
      FSGeneration "data" (some ∅) ⟨0, 0⟩ = .ok r1 ∧
      FSGeneration "data" r1.fsMap r1.counters = .ok r2 ∧
      r1.name = "data" ∧ r2.name = "data" ∧
      mapIndex r1.fsMap "data" = some p ∧ mapIndex r2.fsMap "data" = some p ∧
      r2.fsMap = r1.fsMap ∧
      r2.counters.generatedNameCounter = r1.counters.generatedNameCounter ∧
      r2.counters.addedSuffixCounter = r1.counters.addedSuffixCounter :=
  FSGeneration_idempotent "data" ∅ ⟨0, 0⟩ (by decide)

/-- C8, as stated for every call, fails: on the nil map the call with the name `data`
returns no name and the map gains no entry, since the call panics at the map
assignment. -/
theorem FSGeneration_allocator_rules_counterexample :
    FSGeneration "data" none ⟨0, 0⟩ = .error GoPanic.assignmentToEntryInNilMap ∧
    ¬ (∀ (name : String) (fsMap : GoMap) (c : Counters),
        ∃ r, FSGeneration name fsMap c = .ok r ∧
          (name = "" →
            r.name = "ignition" ++ FormatUint ((c.generatedNameCounter + 1) % 2 ^ 64) ∧
            r.counters.generatedNameCounter = (c.generatedNameCounter + 1) % 2 ^ 64) ∧
          (name ≠ "" →
            r.name = name ∧ r.counters.generatedNameCounter = c.generatedNameCounter) ∧
          (mapIndex fsMap r.name = none → r.name ≠ "oem" →
            mapIndex r.fsMap r.name =
              some ("/tmp/" ++ r.name ++ "-ign" ++
                FormatUint ((c.addedSuffixCounter + 1) % 2 ^ 64)) ∧
            (∀ k, k ≠ r.name → mapIndex r.fsMap k = mapIndex fsMap k) ∧
            r.counters.addedSuffixCounter = (c.addedSuffixCounter + 1) % 2 ^ 64)) := by
  refine ⟨FSGeneration_nil "data" ⟨0, 0⟩, fun h => ?_⟩
  obtain ⟨r, hr, _⟩ := h "data" none ⟨0, 0⟩
  rw [FSGeneration_nil] at hr
  cases hr

/-- C8, amended: the allocator rules, on an initialised (non-nil) map. The call
returns. For the empty name the returned name is
`"ignition"` followed by the decimal rendering of `generatedNameCounter + 1` (in
`uint64` arithmetic) and the counter takes that value; for any other name the returned
name is the input and `generatedNameCounter` is unchanged. If the returned name is
absent from the map and is not `"oem"`, the map afterwards is the old one with exactly
the entry `returnedName ↦ "/tmp/" ++ returnedName ++ "-ign" ++ decimal
(addedSuffixCounter + 1)` added, and `addedSuffixCounter` has advanced by one. -/
theorem FSGeneration_allocator_rules (name : String) (m : FsMap) (c : Counters) :
    ∃ r, FSGeneration name (some m) c = .ok r ∧
      (name = "" →
        r.name = "ignition" ++ FormatUint ((c.generatedNameCounter + 1) % 2 ^ 64) ∧
        r.counters.generatedNameCounter = (c.generatedNameCounter + 1) % 2 ^ 64) ∧
      (name ≠ "" →
        r.name = name ∧ r.counters.generatedNameCounter = c.generatedNameCounter) ∧
      (mapIndex (some m) r.name = none → r.name ≠ "oem" →
        (∃ m' : FsMap, r.fsMap = some m' ∧
          m'.entries =
            ⟨r.name, "/tmp/" ++ r.name ++ "-ign" ++
              FormatUint ((c.addedSuffixCounter + 1) % 2 ^ 64)⟩ :: m.entries) ∧
        r.counters.addedSuffixCounter = (c.addedSuffixCounter + 1) % 2 ^ 64) := by
  have hgen : (name = "" →
      resolvedName name c = "ignition" ++ FormatUint ((c.generatedNameCounter + 1) % 2 ^ 64) ∧
      (countersAfterName name c).generatedNameCounter = (c.generatedNameCounter + 1) % 2 ^ 64) ∧
      (name ≠ "" → resolvedName name c = name ∧
        (countersAfterName name c).generatedNameCounter = c.generatedNameCounter) := by
    constructor
    · rintro rfl
      rw [resolvedName_empty, countersAfterName_empty]
      exact ⟨rfl, rfl⟩
    · intro hne
      rw [resolvedName_of_ne name c hne, countersAfterName_of_ne name c hne]
      exact ⟨rfl, rfl⟩
  have hsuf : (countersAfterName name c).addedSuffixCounter = c.addedSuffixCounter := by
    unfold countersAfterName
    split <;> rfl
  cases h : mapIndex (some m) (resolvedName name c) with
  | some v =>
    refine ⟨_, FSGeneration_present name m c v h, hgen.1, hgen.2, ?_⟩
    intro habs
    rw [h] at habs
    cases habs
  | none =>
    refine ⟨_, FSGeneration_absent name m c h, hgen.1, hgen.2, ?_⟩
    intro _ hoem
    refine ⟨⟨_, rfl, ?_⟩, ?_⟩
    · rw [AList.insert_entries_of_neg ((mapIndex_eq_none m _).mp h)]
      simp only [newPath, if_neg hoem, countersAfterSuffix, hsuf]
    · simp only [countersAfterSuffix, hsuf]

/-! ## Synthesised paths determine their name -/

theorem strip_digits (d r : List Char) (hd : ∀ c ∈ d, c.isDigit = true) :
    List.dropWhile Char.isDigit (d.reverse ++ ('n' :: r)) = 'n' :: r := by
  rw [List.dropWhile_append_of_pos (fun a ha => hd a (List.mem_reverse.mp ha))]
  exact List.dropWhile_cons_of_neg (by decide)

theorem synth_reverse (a : String) (n : Nat) :
    ("/tmp/" ++ a ++ "-ign" ++ FormatUint n).data.reverse =
      (FormatUint n).data.reverse ++ ('n' :: ('g' :: 'i' :: '-' :: a.data.reverse ++
        ['/', 'p', 'm', 't', '/'])) := by
  simp only [String.data_append, List.reverse_append]
  rfl

theorem synth_injective (a b : String) (n k : Nat)
    (h : "/tmp/" ++ a ++ "-ign" ++ FormatUint n = "/tmp/" ++ b ++ "-ign" ++ FormatUint k) :
    a = b := by
  have h1 := congrArg (fun s : String => List.dropWhile Char.isDigit s.data.reverse) h
  simp only [synth_reverse] at h1
  rw [strip_digits _ _ (FormatUint_isDigit n), strip_digits _ _ (FormatUint_isDigit k)] at h1
  simp only [List.cons.injEq, true_and, List.cons_append] at h1
  have h2 := (List.append_left_inj _).mp h1
  exact String.ext (List.reverse_injective h2)

theorem synth_ne_oem (a : String) (n : Nat) :
    "/tmp/" ++ a ++ "-ign" ++ FormatUint n ≠ "/usr/share/oem" := by
  intro h
  have h1 := congrArg String.data h
  simp only [String.data_append, List.append_assoc] at h1
  simp only [List.cons_append, List.cons.injEq, true_and] at h1
  exact absurd h1.1 (by decide)

theorem newPath_injective (k1 k2 : String) (n1 n2 : Nat)
    (h : newPath k1 n1 = newPath k2 n2) : k1 = k2 := by
  unfold newPath at h
  by_cases h1 : k1 = "oem"
  · by_cases h2 : k2 = "oem"
    · rw [h1, h2]
    · rw [if_pos h1, if_neg h2] at h
      exact absurd h.symm (synth_ne_oem k2 n2)
  · by_cases h2 : k2 = "oem"
    · rw [if_neg h1, if_pos h2] at h
      exact absurd h (synth_ne_oem k1 n1)
    · rw [if_neg h1, if_neg h2] at h
      exact synth_injective k1 k2 n1 n2 h

theorem PathsGenerated_empty : PathsGenerated ∅ := by
  intro k v h
  simp [mapIndex] at h

theorem PathsGenerated_insert (m : FsMap) (k : String) (n : Nat) (h : PathsGenerated m) :
    PathsGenerated (m.insert k (newPath k n)) := by
  intro k' v hv
  by_cases hk : k' = k
  · subst hk
    rw [mapIndex_insert_self] at hv
    exact ⟨n, (Option.some.inj hv).symm⟩
  · rw [mapIndex_insert_ne m k k' _ hk] at hv
    exact h k' v hv

theorem PathsGenerated_collision_free (m : FsMap) (h : PathsGenerated m) (k1 k2 p : String)
    (h1 : mapIndex (some m) k1 = some p) (h2 : mapIndex (some m) k2 = some p) : k1 = k2 := by
  obtain ⟨n1, e1⟩ := h k1 p h1
  obtain ⟨n2, e2⟩ := h k2 p h2
  exact newPath_injective k1 k2 n1 n2 (e1.symm.trans e2)

/-! ## Sequences of calls -/

theorem FSGeneration_step (name : String) (m : FsMap) (c : Counters) (hinv : PathsGenerated m) :
    ∃ (m' : FsMap) (c' : Counters),
      FSGeneration name (some m) c = .ok ⟨resolvedName name c, none, some m', c'⟩ ∧
      PathsGenerated m' ∧
      (∀ k v, mapIndex (some m) k = some v → mapIndex (some m') k = some v) ∧
      (∃ v, mapIndex (some m') (resolvedName name c) = some v) := by
  cases h : mapIndex (some m) (resolvedName name c) with
  | some v =>
    exact ⟨m, _, FSGeneration_present name m c v h, hinv, fun _ _ hk => hk, v, h⟩
  | none =>
    refine ⟨_, _, FSGeneration_absent name m c h, PathsGenerated_insert m _ _ hinv, ?_,
      _, mapIndex_insert_self m _ _⟩
    intro k v hk
    have hne : k ≠ resolvedName name c := by
      rintro rfl
      rw [h] at hk
      cases hk
    rw [mapIndex_insert_ne m _ k _ hne]
    exact hk

theorem FSGenerationSeq_cons (n : String) (ns : List String) (m : GoMap) (c : Counters)
    (r : FSGenResult) (rs : List String) (m' : GoMap) (c' : Counters)
    (h1 : FSGeneration n m c = .ok r)
    (h2 : FSGenerationSeq ns r.fsMap r.counters = .ok (rs, m', c')) :
    FSGenerationSeq (n :: ns) m c = .ok (r.name :: rs, m', c') := by
  simp only [FSGenerationSeq, h1, h2]

theorem FSGenerationSeq_preserves (names : List String) :
    ∀ (m : FsMap) (c : Counters), PathsGenerated m →
    ∃ (rs : List String) (m' : FsMap) (c' : Counters),
      FSGenerationSeq names (some m) c = .ok (rs, some m', c') ∧
      PathsGenerated m' ∧
      (∀ k v, mapIndex (some m) k = some v → mapIndex (some m') k = some v) := by
  induction names with
  | nil => intro m c hinv; exact ⟨[], m, c, rfl, hinv, fun _ _ h => h⟩
  | cons n ns ih =>
    intro m c hinv
    obtain ⟨m1, c1, h1, hinv1, hmono1, _⟩ := FSGeneration_step n m c hinv
    obtain ⟨rs, m2, c2, h2, hinv2, hmono2⟩ := ih m1 c1 hinv1
    exact ⟨_, m2, c2, FSGenerationSeq_cons n ns _ c _ rs _ c2 h1 h2, hinv2,
      fun k v hk => hmono2 k v (hmono1 k v hk)⟩

theorem ignition_injective (i j : Nat)
    (h : "ignition" ++ FormatUint i = "ignition" ++ FormatUint j) : i = j := by
  have h1 := congrArg String.data h
  simp only [String.data_append] at h1
  exact FormatUint_injective i j (String.ext (List.append_cancel_left h1))

theorem mapIndex_of_mem_entries (m : FsMap) (e : Sigma (fun _ : String => String))
    (h : e ∈ m.entries) : mapIndex (some m) e.1 = some e.2 := by
  simp only [mapIndex]
  have := (AList.mem_lookup_iff (a := e.1) (b := e.2) (s := m)).mpr h
  exact this

theorem PathsGenerated_values_nodup (m : FsMap) (h : PathsGenerated m) :
    (m.entries.map (fun e => (e.2 : String))).Nodup := by
  have hent : m.entries.Nodup := List.Nodup.of_map Sigma.fst m.keys_nodup
  refine List.Nodup.map_on ?_ hent
  intro x hx y hy hxy
  have hx1 := mapIndex_of_mem_entries m x hx
  have hy1 := mapIndex_of_mem_entries m y hy
  have hkey : x.1 = y.1 :=
    PathsGenerated_collision_free m h x.1 y.1 x.2 hx1 (by rw [hy1]; exact congrArg some hxy.symm)
  obtain ⟨xk, xv⟩ := x
  obtain ⟨yk, yv⟩ := y
  simp only at hkey hxy
  subst hkey
  subst hxy
  rfl

theorem FSGenerationSeq_unnamed (N : Nat) :
    ∀ (m : FsMap) (c : Counters), c.generatedNameCounter + N < 2 ^ 64 →
    (∀ j, c.generatedNameCounter < j →
      mapIndex (some m) ("ignition" ++ FormatUint j) = none) →
    ∃ (m' : FsMap) (c' : Counters),
      FSGenerationSeq (List.replicate N "") (some m) c =
        .ok ((List.range' (c.generatedNameCounter + 1) N).map
          (fun j => "ignition" ++ FormatUint j), some m', c') ∧
      m'.entries.length = m.entries.length + N := by
  induction N with
  | zero => intro m c _ _; exact ⟨m, c, rfl, rfl⟩
  | succ N ih =>
    intro m c hwrap hfresh
    have hmod : (c.generatedNameCounter + 1) % 2 ^ 64 = c.generatedNameCounter + 1 :=
      Nat.mod_eq_of_lt (by omega)
    have hname : resolvedName "" c = "ignition" ++ FormatUint (c.generatedNameCounter + 1) := by
      rw [resolvedName_empty, hmod]
    have habs : mapIndex (some m) (resolvedName "" c) = none := by
      rw [hname]; exact hfresh _ (Nat.lt_succ_self _)
    have hcall := FSGeneration_absent "" m c habs
    have hgen : (countersAfterSuffix (countersAfterName "" c)).generatedNameCounter =
        c.generatedNameCounter + 1 := by
      rw [countersAfterName_empty]; exact hmod
    obtain ⟨m', c', hseq, hlen⟩ := ih
      (m.insert (resolvedName "" c) (newPath (resolvedName "" c)
        (countersAfterSuffix (countersAfterName "" c)).addedSuffixCounter))
      (countersAfterSuffix (countersAfterName "" c))
      (by rw [hgen]; omega)
      (by
        intro j hj
        rw [hgen] at hj
        have hne : "ignition" ++ FormatUint j ≠ resolvedName "" c := by
          rw [hname]
          intro he
          have := ignition_injective _ _ he
          omega
        rw [mapIndex_insert_ne m _ _ _ hne]
        exact hfresh j (by omega))
    refine ⟨m', c', ?_, ?_⟩
    · rw [List.replicate_succ, FSGenerationSeq_cons "" _ (some m) c _ _ _ _ hcall hseq, hgen,
        hname]
      rfl
    · rw [hlen, AList.insert_entries_of_neg ((mapIndex_eq_none m _).mp habs)]
      simp only [List.length_cons]
      omega

/-- C5: from any counter state that does not wrap during the run, `N` calls with the
empty name on the empty map return `N` pairwise distinct names, and the map afterwards
has exactly `N` entries, with pairwise distinct paths. -/
theorem FSGenerationSeq_unnamed_distinct (N : Nat) (c : Counters)
    (hwrap : c.generatedNameCounter + N < 2 ^ 64) :
    ∃ (names : List String) (m : FsMap) (c' : Counters),
      FSGenerationSeq (List.replicate N "") (some ∅) c = .ok (names, some m, c') ∧
      names.length = N ∧ names.Nodup ∧
      m.entries.length = N ∧ (m.entries.map (fun e => (e.2 : String))).Nodup := by
  obtain ⟨m, c', hseq, hlen⟩ := FSGenerationSeq_unnamed N ∅ c hwrap (fun _ _ => rfl)
  obtain ⟨rs, m2, c2, hseq2, hinv, _⟩ :=
    FSGenerationSeq_preserves (List.replicate N "") ∅ c PathsGenerated_empty
  have hm : m2 = m := by
    rw [hseq] at hseq2
    injection hseq2 with h1
    injection h1 with _ h2
    injection h2 with h3 _
    injection h3 with h4
    exact h4.symm
  subst hm
  refine ⟨_, m2, c', hseq, ?_, ?_, ?_, PathsGenerated_values_nodup m2 hinv⟩
  · simp
  · refine List.Nodup.map ?_ (List.nodup_range' _ _)
    intro i j hij
    exact ignition_injective i j hij
  · rw [hlen]
    simp

/-- Witness for C5: three unnamed filesystems, counters starting at zero. -/
theorem FSGenerationSeq_unnamed_distinct_witness :
    ∃ (names : List String) (m : FsMap) (c' : Counters),
      FSGenerationSeq (List.replicate 3 "") (some ∅) ⟨0, 0⟩ = .ok (names, some m, c') ∧
      names.length = 3 ∧ names.Nodup ∧
      m.entries.length = 3 ∧ (m.entries.map (fun e => (e.2 : String))).Nodup :=
  FSGenerationSeq_unnamed_distinct 3 ⟨0, 0⟩ (by decide)

theorem FSGenerationSeq_after_oem (post : List String) (pre : List String) :
    ∀ (m : FsMap) (c : Counters), PathsGenerated m →
    ∃ (rs : List String) (m' : FsMap) (c' : Counters),
      FSGenerationSeq (pre ++ "oem" :: post) (some m) c = .ok (rs, some m', c') ∧
      mapIndex (some m') "oem" = some "/usr/share/oem" := by
  induction pre with
  | nil =>
    intro m c hinv
    obtain ⟨m1, c1, h1, hinv1, _, v, hv⟩ := FSGeneration_step "oem" m c hinv
    rw [resolvedName_of_ne "oem" c (by decide)] at hv
    obtain ⟨n, hn⟩ := hinv1 "oem" v hv
    have hv2 : mapIndex (some m1) "oem" = some "/usr/share/oem" := by
      rw [hv, hn]; rfl
    obtain ⟨rs, m2, c2, h2, _, hmono⟩ := FSGenerationSeq_preserves post m1 c1 hinv1
    exact ⟨_, m2, c2, FSGenerationSeq_cons "oem" post _ c _ rs _ c2 h1 h2, hmono _ _ hv2⟩
  | cons n ns ih =>
    intro m c hinv
    obtain ⟨m1, c1, h1, hinv1, _, _⟩ := FSGeneration_step n m c hinv
    obtain ⟨rs, m2, c2, h2, hoem⟩ := ih m1 c1 hinv1
    exact ⟨_, m2, c2, FSGenerationSeq_cons n _ _ c _ rs _ c2 h1 h2, hoem⟩

/-- C6: in any sequence of calls on an initially empty map, from any counter state, once
a call has been made with the name `"oem"` the map holds `"oem" ↦ "/usr/share/oem"`,
whatever names were resolved before (`pre`) and after (`post`) that call. -/
theorem FSGenerationSeq_oem (pre post : List String) (c : Counters) :
    ∃ (rs : List String) (m : FsMap) (c' : Counters),
      FSGenerationSeq (pre ++ "oem" :: post) (some ∅) c = .ok (rs, some m, c') ∧
      mapIndex (some m) "oem" = some "/usr/share/oem" :=
  FSGenerationSeq_after_oem post pre ∅ c PathsGenerated_empty

/-- C7: synthesised paths are collision-free: after any sequence of calls on an
initially empty map, from any counter state (wrapping or not), two keys of the map that
carry the same path are the same key. -/
theorem FSGenerationSeq_collision_free (names : List String) (c : Counters) :
    ∃ (rs : List String) (m : FsMap) (c' : Counters),
      FSGenerationSeq names (some ∅) c = .ok (rs, some m, c') ∧
      ∀ k1 k2 p, mapIndex (some m) k1 = some p → mapIndex (some m) k2 = some p → k1 = k2 := by
  obtain ⟨rs, m, c', hseq, hinv, _⟩ :=
    FSGenerationSeq_preserves names ∅ c PathsGenerated_empty
  exact ⟨rs, m, c', hseq, PathsGenerated_collision_free m hinv⟩

/-! ## Legacy `File.Validate` -/

/-- C10: the legacy `File.Validate` returns the report of exactly one Error entry
(append and overwrite mutually exclusive) if and only if `Overwrite` is present and
true and `Append` is true; in every other case the report is empty. -/
theorem File_Validate_iff (f : File) :
    (File.Validate f = [⟨entryKind.EntryError, ErrAppendAndOverwrite⟩] ↔
      (f.Overwrite = some true ∧ f.Append = true)) ∧
    (¬ (f.Overwrite = some true ∧ f.Append = true) → File.Validate f = []) := by
  obtain ⟨o, a, md⟩ := f
  cases o with
  | none => simp [File.Validate]
  | some b => cases b <;> cases a <;> simp [File.Validate, ReportFromError]

/-! ## Compression, verification and overwrite rules -/

/-- C11: in both schema versions the compression validator reports an error exactly
when the compression value is outside `""` and `"gzip"`: the legacy
`ValidateCompression` returns the single Error entry then and the empty report
otherwise; the current `validateCompression` returns `ErrCompressionInvalid` when
`Compression` is set to such a value and nil otherwise, in particular when it is nil. -/
theorem compression_rule :
    (∀ fc : FileContents,
      (¬ (fc.Compression = "" ∨ fc.Compression = "gzip") →
        fc.ValidateCompression = [⟨entryKind.EntryError, ErrCompressionInvalid⟩]) ∧
      ((fc.Compression = "" ∨ fc.Compression = "gzip") → fc.ValidateCompression = [])) ∧
    (∀ fc : v3_0.FileContents,
      ((∃ comp, fc.Compression = some comp ∧ ¬ (comp = "" ∨ comp = "gzip")) →
        fc.validateCompression = some v3_0.ErrCompressionInvalid) ∧
      (¬ (∃ comp, fc.Compression = some comp ∧ ¬ (comp = "" ∨ comp = "gzip")) →
        fc.validateCompression = none) ∧
      (fc.Compression = none → fc.validateCompression = none)) := by
  refine ⟨fun fc => ⟨fun h => ?_, fun h => ?_⟩, fun fc => ⟨?_, ?_, ?_⟩⟩
  · simp only [FileContents.ValidateCompression, if_neg h, Report.Add, List.nil_append]
  · simp only [FileContents.ValidateCompression, if_pos h]
  · rintro ⟨comp, hc, hbad⟩
    simp only [v3_0.FileContents.validateCompression, hc, if_neg hbad]
  · intro h
    cases hc : fc.Compression with
    | none => simp only [v3_0.FileContents.validateCompression, hc]
    | some comp =>
      have hgood : comp = "" ∨ comp = "gzip" := by
        by_contra hbad
        exact h ⟨comp, hc, hbad⟩
      simp only [v3_0.FileContents.validateCompression, hc, if_pos hgood]
  · intro hc
    simp only [v3_0.FileContents.validateCompression, hc]

/-- C12: the current `validateVerification` returns the verification-without-source
error if and only if `Verification.Hash` is set and `Source` is nil, and nil in every
other case; with `Verification.Hash` nil it returns nil whatever `Source` is. -/
theorem validateVerification_iff (fc : v3_0.FileContents) :
    (fc.validateVerification = some v3_0.ErrVerificationAndNilSource ↔
      (fc.Verification.Hash ≠ none ∧ fc.Source = none)) ∧
    (fc.validateVerification = none ↔ ¬ (fc.Verification.Hash ≠ none ∧ fc.Source = none)) ∧
    (fc.Verification.Hash = none → fc.validateVerification = none) := by
  unfold v3_0.FileContents.validateVerification
  by_cases h : fc.Verification.Hash ≠ none ∧ fc.Source = none
  · rw [if_pos h]
    refine ⟨⟨fun _ => h, fun _ => rfl⟩, ⟨fun hc => ?_, fun hn => absurd h hn⟩,
      fun hn => absurd hn h.1⟩
    cases hc
  · rw [if_neg h]
    refine ⟨⟨fun hc => ?_, fun hc => absurd hc h⟩, ⟨fun _ => h, fun _ => rfl⟩, fun _ => rfl⟩
    cases hc

/-- C13: the current `validateOverwrite` returns the overwrite-without-source error if
and only if `Overwrite` is set and true and `Contents.Source` is nil, and nil otherwise;
and `File.Validate` puts that error last in its report, as an Error entry whose context
is the file's context path with `overwrite` appended, after the entries of the node and
mode checks, and adds no such entry when the error is nil. -/
theorem validateOverwrite_iff (f : v3_0.File) :
    (f.validateOverwrite = some v3_0.ErrOverwriteAndNilSource ↔
      (f.Overwrite = some true ∧ f.Contents.Source = none)) ∧
    (f.validateOverwrite = none ↔ ¬ (f.Overwrite = some true ∧ f.Contents.Source = none)) ∧
    (∀ (nodeReport : v3_0.Report) (modeErr : Option String) (c : v3_0.ContextPath),
      v3_0.File.Validate nodeReport modeErr f c =
        (nodeReport ++
          (match modeErr with
            | none => []
            | some msg =>
              [⟨v3_0.Kind.Error, msg, ⟨c.Path ++ [v3_0.PathElem.field "mode"], c.Tag⟩⟩])) ++
          (if f.Overwrite = some true ∧ f.Contents.Source = none then
            [⟨v3_0.Kind.Error, v3_0.ErrOverwriteAndNilSource,
              ⟨c.Path ++ [v3_0.PathElem.field "overwrite"], c.Tag⟩⟩]
          else [])) := by
  have hT : (v3_0.IsTrue f.Overwrite = true ∧ f.Contents.Source = none) ↔
      (f.Overwrite = some true ∧ f.Contents.Source = none) := by
    cases ho : f.Overwrite with
    | none => simp [v3_0.IsTrue]
    | some b => cases b <;> simp [v3_0.IsTrue]
  by_cases h : f.Overwrite = some true ∧ f.Contents.Source = none
  · have hv : f.validateOverwrite = some v3_0.ErrOverwriteAndNilSource := by
      unfold v3_0.File.validateOverwrite
      rw [if_pos (hT.mpr h)]
    refine ⟨⟨fun _ => h, fun _ => hv⟩, ⟨fun hn => ?_, fun hn => absurd h hn⟩, ?_⟩
    · rw [hv] at hn
      cases hn
    · intro nodeReport modeErr c
      cases modeErr <;>
        simp [v3_0.File.Validate, hv, if_pos h, v3_0.Report.Merge, v3_0.Report.AddOnError,
          v3_0.ContextPath.Append]
  · have hv : f.validateOverwrite = none := by
      unfold v3_0.File.validateOverwrite
      rw [if_neg (fun hc => h (hT.mp hc))]
    refine ⟨⟨fun hs => ?_, fun hc => absurd hc h⟩, ⟨fun _ => h, fun _ => hv⟩, ?_⟩
    · rw [hv] at hs
      cases hs
    · intro nodeReport modeErr c
      cases modeErr <;>
        simp [v3_0.File.Validate, hv, if_neg h, v3_0.Report.Merge, v3_0.Report.AddOnError,
          v3_0.ContextPath.Append]

/-- C18: the current `FileContents.Validate` accumulates the diagnostics of its rules
without stopping at the first and in rule order: for a `FileContents` with `Source` nil
and any context `c`, the report is the compression error at `c` + `compression` (present
exactly when `Compression` is set outside `""` and `"gzip"`) followed by the
verification error at `c` + `verification` + `hash` (present exactly when
`Verification.Hash` is set); both are there, compression first, when both rules are
violated. -/
theorem FileContents_Validate_accumulates (validateURL : String → Option String)
    (comp hash : Option String) (c : v3_0.ContextPath) :
    v3_0.FileContents.Validate validateURL ⟨comp, none, ⟨hash⟩⟩ c =
      (if (∃ v, comp = some v ∧ ¬ (v = "" ∨ v = "gzip")) then
        [⟨v3_0.Kind.Error, v3_0.ErrCompressionInvalid,
          ⟨c.Path ++ [v3_0.PathElem.field "compression"], c.Tag⟩⟩]
      else []) ++
      (if hash ≠ none then
        [⟨v3_0.Kind.Error, v3_0.ErrVerificationAndNilSource,
          ⟨c.Path ++ [v3_0.PathElem.field "verification", v3_0.PathElem.field "hash"],
            c.Tag⟩⟩]
      else []) := by
  have hver : ∀ r : v3_0.Report,
      v3_0.Report.AddOnError
        (v3_0.Report.AddOnError r (c.Append ["verification", "hash"])
          (v3_0.FileContents.validateVerification ⟨comp, none, ⟨hash⟩⟩))
        (c.Append ["source"]) (v3_0.validateURLNilOK validateURL none) =
      r ++ (if hash ≠ none then
        [⟨v3_0.Kind.Error, v3_0.ErrVerificationAndNilSource,
          ⟨c.Path ++ [v3_0.PathElem.field "verification", v3_0.PathElem.field "hash"],
            c.Tag⟩⟩]
      else []) := by
    intro r
    cases hash <;>
      simp [v3_0.FileContents.validateVerification, v3_0.validateURLNilOK,
        v3_0.Report.AddOnError, v3_0.ContextPath.Append]
  have hcomp : v3_0.Report.AddOnError [] (c.Append ["compression"])
        (v3_0.FileContents.validateCompression ⟨comp, none, ⟨hash⟩⟩) =
      (if (∃ v, comp = some v ∧ ¬ (v = "" ∨ v = "gzip")) then
        [⟨v3_0.Kind.Error, v3_0.ErrCompressionInvalid,
          ⟨c.Path ++ [v3_0.PathElem.field "compression"], c.Tag⟩⟩]
      else []) := by
    by_cases hx : ∃ v, comp = some v ∧ ¬ (v = "" ∨ v = "gzip")
    · rw [if_pos hx]
      obtain ⟨v, rfl, hv⟩ := hx
      simp only [v3_0.FileContents.validateCompression, if_neg hv, v3_0.Report.AddOnError,
        v3_0.ContextPath.Append, List.nil_append, List.map_cons, List.map_nil]
    · rw [if_neg hx]
      cases comp with
      | none => simp only [v3_0.FileContents.validateCompression, v3_0.Report.AddOnError]
      | some v =>
        have hgood : v = "" ∨ v = "gzip" := by
          by_contra hbad
          exact hx ⟨v, rfl, hbad⟩
        simp only [v3_0.FileContents.validateCompression, if_pos hgood,
          v3_0.Report.AddOnError]
  unfold v3_0.FileContents.Validate
  simp only []
  rw [hcomp]
  exact hver _

/-! ## Legacy HTTP headers and mode rules -/

/-- C14: the legacy `ValidateHTTPHeaders`, for any behaviour of `url.Parse`. With no
header the report is empty whatever `Source` is. With at least one header the report is
empty exactly when `Source` parses as a URL of scheme `http` or `https`; otherwise it is
a single Error entry: invalid URL when `Source` does not parse, unsupported scheme when
it parses with another scheme. -/
theorem ValidateHTTPHeaders_rule (urlParse : String → Option URL) (fc : FileContents) :
    (fc.HTTPHeaders = [] → fc.ValidateHTTPHeaders urlParse = []) ∧
    (fc.HTTPHeaders ≠ [] →
      (fc.ValidateHTTPHeaders urlParse = [] ↔
        ∃ u, urlParse fc.Source = some u ∧ (u.Scheme = "http" ∨ u.Scheme = "https")) ∧
      (urlParse fc.Source = none →
        fc.ValidateHTTPHeaders urlParse = [⟨entryKind.EntryError, ErrInvalidUrl⟩]) ∧
      (∀ u, urlParse fc.Source = some u → ¬ (u.Scheme = "http" ∨ u.Scheme = "https") →
        fc.ValidateHTTPHeaders urlParse =
          [⟨entryKind.EntryError, ErrUnsupportedSchemeForHTTPHeaders⟩])) := by
  constructor
  · intro h
    simp only [FileContents.ValidateHTTPHeaders, h, List.length_nil, Nat.lt_one_iff,
      if_true]
  · intro h
    have hlen : ¬ fc.HTTPHeaders.length < 1 := by
      have := List.length_pos.mpr h
      omega
    cases hp : urlParse fc.Source with
    | none =>
      have hr : fc.ValidateHTTPHeaders urlParse =
          [⟨entryKind.EntryError, ErrInvalidUrl⟩] := by
        simp only [FileContents.ValidateHTTPHeaders, if_neg hlen, hp, Report.Add,
          List.nil_append]
      refine ⟨⟨fun he => ?_, fun ⟨u, hu, _⟩ => (by cases hu)⟩, fun _ => hr,
        fun u hu => (by cases hu)⟩
      rw [hr] at he
      cases he
    | some u =>
      by_cases hs : u.Scheme = "http" ∨ u.Scheme = "https"
      · have hr : fc.ValidateHTTPHeaders urlParse = [] := by
          simp only [FileContents.ValidateHTTPHeaders, if_neg hlen, hp, if_pos hs]
        refine ⟨⟨fun _ => ⟨u, rfl, hs⟩, fun _ => hr⟩, fun hn => (by cases hn),
          fun u' hu' hbad => ?_⟩
        cases hu'
        exact absurd hs hbad
      · have hr : fc.ValidateHTTPHeaders urlParse =
            [⟨entryKind.EntryError, ErrUnsupportedSchemeForHTTPHeaders⟩] := by
          simp only [FileContents.ValidateHTTPHeaders, if_neg hlen, hp, if_neg hs, Report.Add,
            List.nil_append]
        refine ⟨⟨fun he => ?_, fun ⟨u', hu', hgood⟩ => ?_⟩, fun hn => (by cases hn),
          fun _ _ _ => hr⟩
        · rw [hr] at he
          cases he
        · cases hu'
          exact absurd hgood hs

/-- C19: the legacy `ValidateMode` treats an unset mode as a warning only: the report
holds a Warning entry if and only if `Mode` is nil; when `Mode` is nil the report is
that single Warning entry, with no Error entry; and the report is always a run of Error
entries followed by a run of Warning entries, so no Warning precedes an Error. -/
theorem ValidateMode_warning (wellFormed : Int → Bool) (f : File) :
    ((∃ e ∈ f.ValidateMode wellFormed, e.Kind = entryKind.EntryWarning) ↔ f.Mode = none) ∧
    (f.Mode = none →
      f.ValidateMode wellFormed = [⟨entryKind.EntryWarning, ErrPermissionsUnset⟩] ∧
      ∀ e ∈ f.ValidateMode wellFormed, e.Kind ≠ entryKind.EntryError) ∧
    (∃ errs warns : Report,
      f.ValidateMode wellFormed = errs ++ warns ∧
      (∀ e ∈ errs, e.Kind = entryKind.EntryError) ∧
      (∀ e ∈ warns, e.Kind = entryKind.EntryWarning)) := by
  obtain ⟨o, a, md⟩ := f
  cases md with
  | none =>
    have hr : File.ValidateMode wellFormed ⟨o, a, none⟩ =
        [⟨entryKind.EntryWarning, ErrPermissionsUnset⟩] := by
      simp [File.ValidateMode, validateMode, Report.Add]
    rw [hr]
    refine ⟨⟨fun _ => rfl, fun _ => ⟨_, List.mem_singleton.mpr rfl, rfl⟩⟩, fun _ => ⟨rfl, ?_⟩,
      [], _, rfl, ?_, ?_⟩
    · intro e he
      rw [List.mem_singleton.mp he]
      decide
    · intro e he
      cases he
    · intro e he
      rw [List.mem_singleton.mp he]
  | some v =>
    cases hw : wellFormed v with
    | true =>
      have hr : File.ValidateMode wellFormed ⟨o, a, some v⟩ = [] := by
        simp [File.ValidateMode, validateMode, hw]
      rw [hr]
      refine ⟨⟨fun ⟨e, he, _⟩ => (by cases he), fun h => (by cases h)⟩, fun h => (by cases h),
        [], [], rfl, ?_, ?_⟩ <;> intro e he <;> cases he
    | false =>
      have hr : File.ValidateMode wellFormed ⟨o, a, some v⟩ =
          [⟨entryKind.EntryError, ErrFileIllegalMode⟩] := by
        simp [File.ValidateMode, validateMode, hw, Report.Add]
      rw [hr]
      refine ⟨⟨fun ⟨e, he, hk⟩ => ?_, fun h => (by cases h)⟩, fun h => (by cases h),
        _, [], (List.append_nil _).symm, ?_, ?_⟩
      · rw [List.mem_singleton.mp he] at hk
        cases hk
      · intro e he
        rw [List.mem_singleton.mp he]
      · intro e he
        cases he

/-! ## The pointer helpers -/

/-- C15: the value-of helpers undo the pointer-of helpers, an absent value reading as
the default: `StrV (StrP s) = s`, `StrV (StrPStrict s) = s`, `BoolV (BoolP b) = b`,
`BoolV (BoolPStrict b) = b`, `IntV (IntP n) = n`, and on nil `StrV` is `""`, `BoolV` is
`false`, `IntV` is `0`. -/
theorem value_of_pointer :
    (∀ s : String, StrV (StrP s) = s ∧ StrV (StrPStrict s) = s) ∧
    (∀ b : Bool, BoolV (BoolP b) = b ∧ BoolV (BoolPStrict b) = b) ∧
    (∀ n : Int, IntV (IntP n) = n) ∧
    StrV none = "" ∧ BoolV none = false ∧ IntV none = 0 := by
  refine ⟨fun s => ⟨?_, rfl⟩, fun b => ⟨?_, rfl⟩, fun n => ?_, rfl, rfl, rfl⟩
  · unfold StrP
    by_cases h : s = ""
    · rw [if_pos h, h]; rfl
    · rw [if_neg h]; rfl
  · cases b <;> rfl
  · unfold IntP
    by_cases h : n = 0
    · rw [if_pos h, h]; rfl
    · rw [if_neg h]; rfl

/-! ## Frame of one call -/

/-- C20, as stated for every fsMap, fails: on the nil map the call with the name
`data` panics at the map assignment, so no name is returned and none becomes a key. -/
theorem FSGeneration_frame_counterexample :
    FSGeneration "data" none ⟨0, 0⟩ = .error GoPanic.assignmentToEntryInNilMap ∧
    ¬ (∀ (name : String) (fsMap : GoMap) (c : Counters),
        ∃ r, FSGeneration name fsMap c = .ok r ∧
          (∃ p, mapIndex r.fsMap r.name = some p) ∧
          (∀ k p, mapIndex fsMap k = some p → mapIndex r.fsMap k = some p) ∧
          (∀ k, k ≠ r.name → mapIndex fsMap k = none → mapIndex r.fsMap k = none)) := by
  refine ⟨FSGeneration_nil "data" ⟨0, 0⟩, fun h => ?_⟩
  obtain ⟨r, hr, _⟩ := h "data" none ⟨0, 0⟩
  rw [FSGeneration_nil] at hr
  cases hr

/-- C20, amended: on an initialised (non-nil) map `FSGeneration` only ever adds the
entry of the name it returns: the call returns, the returned name is a key of the map
afterwards, every key present before still maps to the same path, and a key other than
the returned name that was absent before is absent afterwards. -/
theorem FSGeneration_frame (name : String) (m : FsMap) (c : Counters) :
    ∃ (r : FSGenResult) (m' : FsMap),
      FSGeneration name (some m) c = .ok r ∧ r.fsMap = some m' ∧
      (∃ p, mapIndex (some m') r.name = some p) ∧
      (∀ k p, mapIndex (some m) k = some p → mapIndex (some m') k = some p) ∧
      (∀ k, k ≠ r.name → mapIndex (some m) k = none → mapIndex (some m') k = none) := by
  cases h : mapIndex (some m) (resolvedName name c) with
  | some v =>
    exact ⟨_, m, FSGeneration_present name m c v h, rfl, ⟨v, h⟩, fun _ _ hk => hk,
      fun _ _ hk => hk⟩
  | none =>
    refine ⟨_, _, FSGeneration_absent name m c h, rfl, ⟨_, mapIndex_insert_self m _ _⟩, ?_, ?_⟩
    · intro k p hk
      have hne : k ≠ resolvedName name c := by
        rintro rfl
        rw [h] at hk
        cases hk
      rw [mapIndex_insert_ne m _ k _ hne]
      exact hk
    · intro k hne hk
      rw [mapIndex_insert_ne m _ k _ hne]
      exact hk

/-- C17, as stated, fails: resolving `"oem"` against the empty map from counters
`(0, 0)` leaves `addedSuffixCounter` at `1`, not `0`, and the name `data` resolved next
gets the path `/tmp/data-ign2`, not `/tmp/data-ign1`. -/
theorem FSGeneration_oem_counter_counterexample :
    ∃ r1 r2,
      FSGeneration "oem" (some ∅) ⟨0, 0⟩ = .ok r1 ∧
      r1.counters.addedSuffixCounter = 1 ∧
      FSGeneration "data" r1.fsMap r1.counters = .ok r2 ∧
      mapIndex r2.fsMap "data" = some "/tmp/data-ign2" ∧
      mapIndex r2.fsMap "data" ≠ some ("/tmp/" ++ "data" ++ "-ign" ++ FormatUint (0 + 1)) := by
  refine ⟨_, _, rfl, rfl, rfl, by decide, by decide⟩

/-- C17, amended: the suffix counter is consumed whenever an entry is added, the
`"oem"` entry included. Resolving `"oem"` against a map that lacks it assigns
`/usr/share/oem`, leaves `generatedNameCounter` unchanged and advances
`addedSuffixCounter` by one; so, starting from suffix counter value `c`, a new non-empty
name `x` other than `"oem"` resolved next gets the path
`"/tmp/" ++ x ++ "-ign" ++ decimal (c + 2)` (in `uint64` arithmetic). -/
theorem FSGeneration_oem_counter (m : FsMap) (c : Counters) (x : String)
    (hoem : mapIndex (some m) "oem" = none) (hx : mapIndex (some m) x = none)
    (hne : x ≠ "") (hxo : x ≠ "oem") :
    ∃ r1 r2,
      FSGeneration "oem" (some m) c = .ok r1 ∧
      mapIndex r1.fsMap "oem" = some "/usr/share/oem" ∧
      r1.counters.generatedNameCounter = c.generatedNameCounter ∧
      r1.counters.addedSuffixCounter = (c.addedSuffixCounter + 1) % 2 ^ 64 ∧
      FSGeneration x r1.fsMap r1.counters = .ok r2 ∧
      mapIndex r2.fsMap x =
        some ("/tmp/" ++ x ++ "-ign" ++ FormatUint ((c.addedSuffixCounter + 2) % 2 ^ 64)) := by
  have hr := resolvedName_of_ne "oem" c (by decide)
  have hc := countersAfterName_of_ne "oem" c (by decide)
  have h1 := FSGeneration_absent "oem" m c (by rw [hr]; exact hoem)
  rw [hr, hc] at h1
  have hx1 : mapIndex (some (m.insert "oem"
      (newPath "oem" (countersAfterSuffix c).addedSuffixCounter))) x = none := by
    rw [mapIndex_insert_ne m _ x _ hxo]
    exact hx
  have h2 := FSGeneration_absent x _ (countersAfterSuffix c)
    (by rw [resolvedName_of_ne x _ hne]; exact hx1)
  rw [resolvedName_of_ne x _ hne, countersAfterName_of_ne x _ hne] at h2
  refine ⟨_, _, h1, mapIndex_insert_self m _ _, rfl, rfl, h2, ?_⟩
  rw [mapIndex_insert_self]
  have harith : ((c.addedSuffixCounter + 1) % 2 ^ 64 + 1) % 2 ^ 64 =
      (c.addedSuffixCounter + 2) % 2 ^ 64 := by
    omega
  simp only [newPath, if_neg hxo, countersAfterSuffix, harith]

/-- Witness for C17: `"oem"` then `data` on the empty map, counters starting at zero. -/
theorem FSGeneration_oem_counter_witness :
    ∃ r1 r2,
      FSGeneration "oem" (some ∅) ⟨0, 0⟩ = .ok r1 ∧
      mapIndex r1.fsMap "oem" = some "/usr/share/oem" ∧
      r1.counters.generatedNameCounter = 0 ∧
      r1.counters.addedSuffixCounter = (0 + 1) % 2 ^ 64 ∧
      FSGeneration "data" r1.fsMap r1.counters = .ok r2 ∧
      mapIndex r2.fsMap "data" =
        some ("/tmp/" ++ "data" ++ "-ign" ++ FormatUint ((0 + 2) % 2 ^ 64)) :=
  FSGeneration_oem_counter ∅ ⟨0, 0⟩ "data" rfl rfl (by decide) (by decide)

end IgnConverter
